import Mathlib

/-!
Shallow embedding of the chart-data core of `battop` (src/app/ui/chart.rs and
src/app/ui/view.rs).  The `f64` coordinates are modelled as exact rationals:
every arithmetic operation the core performs on them (subtracting `0.5`,
comparisons, `floor`, `ceil`) is exact on the dyadic rationals involved, so the
rational model computes the same values as the floating-point program.
Panicking operations (`unwrap`, out-of-bounds indexing, `Vec::remove`) are
modelled by `Option`, with `none` standing for a panic.
-/

namespace Battop

/-- Subset of `tui::style::Color` used by the views (`view.rs` constructs charts
with `Color::Green` and `Color::Red`). -/
inductive Color where
  | green
  | red
  deriving DecidableEq

/-- Rust enum `ChartType` from `chart.rs`. -/
inductive ChartType where
  | Voltage
  | EnergyRate
  | Temperature
  deriving DecidableEq

/-- Rust enum `battery::State` (the variants the source matches on). -/
inductive BatteryState where
  | Unknown
  | Charging
  | Discharging
  | Empty
  | Full
  deriving DecidableEq

/-- Rust enum `Units` from the configuration (`Human` vs `Si`). -/
inductive Units where
  | Human
  | Si
  deriving DecidableEq

/-- Rust struct `Config`: only its `units()` accessor is consulted by the chart
code. -/
structure Config where
  units : Units
  deriving DecidableEq

/-- Rust constant `RESOLUTION: usize = 512` from `chart.rs`. -/
def RESOLUTION : ℕ := 512

/-- Rust struct `ChartData<const N: usize>` from `chart.rs`.  The fixed-size
array `points_sets: [Vec<(f64, f64)>; N]` is modelled as a list of `N` series,
each an ordered list of `(x, y)` points; `colors: [Color; N]` likewise. -/
structure ChartData where
  config : Config
  chart_type : ChartType
  enabled : Bool
  battery_state : BatteryState
  points_sets : List (List (ℚ × ℚ))
  colors : List Color
  value_latest : ℚ
  value_min : ℚ
  value_max : ℚ
  deriving DecidableEq

/-- Rust `ChartData::new`: `N` empty series, `enabled = true`,
`value_latest = 0.0`, `value_min = 100.0`, `value_max = 0.0`. -/
def ChartData.new (config : Config) (chart_type : ChartType) (colors : List Color) :
    ChartData :=
  { config := config
    chart_type := chart_type
    enabled := true
    battery_state := BatteryState.Unknown
    points_sets := List.replicate colors.length []
    colors := colors
    value_latest := 0
    value_min := 100
    value_max := 0 }

/-- Rust `ChartData::enabled(&mut self, value: bool)` — the setter for the
`enabled` flag (the spec's `setEnabled`). -/
def ChartData.setEnabled (s : ChartData) (value : Bool) : ChartData :=
  { s with enabled := value }

/-- Rust `ChartData::battery_state(&mut self) -> &mut State`: callers use the
returned reference only to overwrite the state, which we model as a setter. -/
def ChartData.setBatteryState (s : ChartData) (st : BatteryState) : ChartData :=
  { s with battery_state := st }

/-- Eviction key of one series, from the `min_by_key` closure in
`ChartData::push`: the front point's `x`, or `f64::INFINITY` for an empty
series, modelled as `WithTop ℚ` (the stored `x` values are never NaN, so the
`NotNan::new(..).unwrap()` always succeeds and is exactly the coercion here). -/
def frontKey (series : List (ℚ × ℚ)) : WithTop ℚ :=
  match series with
  | [] => ⊤
  | p :: _ => (p.1 : WithTop ℚ)

/-- Scan step of Rust `Iterator::min_by_key`: `i` is the index of the head of
the remaining list, `best` the currently minimal `(index, key)` pair; a later
element replaces `best` only when its key is strictly smaller, so the first
minimal element wins. -/
def firstMinIdxAux {α : Type} [LinearOrder α] (i : ℕ) (best : ℕ × α) :
    List α → ℕ
  | [] => best.1
  | k :: rest =>
    if k < best.2 then firstMinIdxAux (i + 1) (i, k) rest
    else firstMinIdxAux (i + 1) best rest

/-- Rust `Iterator::min_by_key` over a list of keys, returning the index of the
first minimal element (`none` on an empty iterator, where `unwrap` panics). -/
def firstMinIdx {α : Type} [LinearOrder α] : List α → Option ℕ
  | [] => none
  | k :: rest => some (firstMinIdxAux 1 (0, k) rest)

/-- Index of the series selected for eviction in `ChartData::push`:
`min_by_key` over the series' front keys. -/
def minFrontIdx (sets : List (List (ℚ × ℚ))) : Option ℕ :=
  firstMinIdx (sets.map frontKey)

/-- Total number of stored points, as computed by
`points_sets.iter().map(|set| set.len()).sum::<usize>()`. -/
def sumLens (sets : List (List (ℚ × ℚ))) : ℕ :=
  (sets.map List.length).sum

/-- Eviction phase of `ChartData::push`: when the total point count equals
`RESOLUTION`, remove (`Vec::remove(0)`) the front point of the series selected
by `min_by_key`; `none` models the two possible panics (`unwrap` of
`min_by_key` on zero series, `remove(0)` on an empty series). -/
def evictStep (sets : List (List (ℚ × ℚ))) : Option (List (List (ℚ × ℚ))) :=
  if sumLens sets = RESOLUTION then
    match minFrontIdx sets with
    | none => none
    | some j =>
      match sets[j]? with
      | some (_ :: rest) => some (sets.set j rest)
      | _ => none
  else
    some sets

/-- Aging of a single point: `*x -= 0.5` in `ChartData::push`. -/
def agePoint (p : ℚ × ℚ) : ℚ × ℚ :=
  (p.1 - 1 / 2, p.2)

/-- Aging phase of `ChartData::push`: every remaining point of every series has
its `x` decremented by `0.5`. -/
def ageStep (sets : List (List (ℚ × ℚ))) : List (List (ℚ × ℚ)) :=
  sets.map (List.map agePoint)

/-- Insertion phase of `ChartData::push`:
`self.points_sets[index].push((RESOLUTION as f64 / 2.0, value))`; `none` models
the index-out-of-bounds panic. -/
def insertStep (sets : List (List (ℚ × ℚ))) (value : ℚ) (index : ℕ) :
    Option (List (List (ℚ × ℚ))) :=
  match sets[index]? with
  | none => none
  | some seti => some (sets.set index (seti ++ [((RESOLUTION : ℚ) / 2, value)]))

/-- Minimum of a list of `y` values, as the fold performed by itertools
`minmax_by_key` (`none` on the empty list, itertools' `NoElements`). -/
def minY : List ℚ → Option ℚ
  | [] => none
  | y :: ys => some (ys.foldl min y)

/-- Maximum of a list of `y` values, as the fold performed by itertools
`minmax_by_key`. -/
def maxY : List ℚ → Option ℚ
  | [] => none
  | y :: ys => some (ys.foldl max y)

/-- Rust `ChartData::push(value, index)`: evict when at capacity, age every
remaining point by `0.5`, record `value_latest`, append the new point
`(RESOLUTION/2, value)` to series `index`, and recompute `value_min` and
`value_max` by a full scan of all stored points (`minmax_by_key`; on
`MinMaxResult::OneElement` both are set to the single element, on `NoElements`
they are left unchanged).  `none` models a panic. -/
def ChartData.push (s : ChartData) (value : ℚ) (index : ℕ) : Option ChartData :=
  match evictStep s.points_sets with
  | none => none
  | some sets₁ =>
    match insertStep (ageStep sets₁) value index with
    | none => none
    | some sets₃ =>
      let ys := sets₃.flatten.map Prod.snd
      match minY ys, maxY ys with
      | some mn, some mx =>
        some { s with points_sets := sets₃, value_latest := value,
                      value_min := mn, value_max := mx }
      | _, _ =>
        some { s with points_sets := sets₃, value_latest := value }

/-- Rust `ChartData::title`. -/
def ChartData.title (s : ChartData) : String :=
  match s.chart_type with
  | ChartType.Voltage => "Voltage"
  | ChartType.EnergyRate =>
    match s.battery_state with
    | BatteryState.Charging => "Charging with"
    | BatteryState.Discharging => "Discharging with"
    | _ => "Consumption"
  | ChartType.Temperature => "Temperature"

/-- Unit abbreviation `volt::abbreviation()`. -/
def voltAbbrev : String := "V"

/-- Unit abbreviation `watt::abbreviation()`. -/
def wattAbbrev : String := "W"

/-- Unit abbreviation `degree_celsius::abbreviation()`. -/
def celsiusAbbrev : String := "°C"

/-- Unit abbreviation `kelvin::abbreviation()`. -/
def kelvinAbbrev : String := "K"

/-- Rounding of a rational to the nearest integer, ties to even — the rounding
Rust float formatting applies for a `{:.N}` precision. -/
def roundHalfEven (q : ℚ) : ℤ :=
  let f := ⌊q⌋
  if q - f < 1 / 2 then f
  else if q - f > 1 / 2 then f + 1
  else if f % 2 = 0 then f else f + 1

/-- Rendering of `format!("{:.2}", v)`: two decimal places. -/
def format2 (q : ℚ) : String :=
  let n := roundHalfEven (q * 100)
  let sign := if n < 0 then "-" else ""
  let m := n.natAbs
  let fp := m % 100
  let fpStr := if fp < 10 then "0" ++ toString fp else toString fp
  sign ++ toString (m / 100) ++ "." ++ fpStr

/-- Rust `ChartData::current`: the latest value formatted to two decimals with
the unit abbreviation, or the string `"NOT AVAILABLE"` when disabled. -/
def ChartData.current (s : ChartData) : String :=
  if s.enabled then
    match s.chart_type with
    | ChartType.Voltage => format2 s.value_latest ++ " " ++ voltAbbrev
    | ChartType.EnergyRate => format2 s.value_latest ++ " " ++ wattAbbrev
    | ChartType.Temperature =>
      match s.config.units with
      | Units.Human => format2 s.value_latest ++ " " ++ celsiusAbbrev
      | Units.Si => format2 s.value_latest ++ " " ++ kelvinAbbrev
  else
    "NOT AVAILABLE"

/-- Rust `ChartData::points`: each series paired with its color. -/
def ChartData.points (s : ChartData) : List (List (ℚ × ℚ) × Color) :=
  s.points_sets.zip s.colors

/-- Rust `ChartData::x_bounds`: the fixed range `[0.0, 256.0]`. -/
def ChartData.x_bounds (_s : ChartData) : List ℚ :=
  [0, 256]

/-- Rust `ChartData::y_lower`: `floor(value_min - 1)`, replaced by `-1` when
negative; `0` when disabled. -/
def ChartData.y_lower (s : ChartData) : ℚ :=
  if s.enabled then
    let value : ℚ := ((⌊s.value_min - 1⌋ : ℤ) : ℚ)
    if value < 0 then -1 else value
  else 0

/-- Rust `ChartData::y_upper`: `ceil(value_max + 1)`; `0` when disabled. -/
def ChartData.y_upper (s : ChartData) : ℚ :=
  if s.enabled then ((⌈s.value_max + 1⌉ : ℤ) : ℚ) else 0

/-- Rust `ChartData::y_labels`: the two bounds formatted with `{:2.0}` (no
decimal places); we model the rendered text by its numeric content, the
round-to-integer of each bound. -/
def ChartData.y_labels (s : ChartData) : List ℤ :=
  [roundHalfEven s.y_lower, roundHalfEven s.y_upper]

/-- Rust `ChartData::y_bounds`: `[y_lower, y_upper]`. -/
def ChartData.y_bounds (s : ChartData) : List ℚ :=
  [s.y_lower, s.y_upper]

/-- All points currently stored, across all series (the flattening
`points_sets.iter().flatten()`). -/
def stored (s : ChartData) : List (ℚ × ℚ) :=
  s.points_sets.flatten

/-- Total number of stored points of a chart state. -/
def sumCounts (s : ChartData) : ℕ :=
  sumLens s.points_sets

/-- States reachable from a freshly constructed `ChartData` by successful
pushes and by the two setters. -/
inductive Reachable : ChartData → Prop where
  | new (config : Config) (chart_type : ChartType) (colors : List Color) :
      Reachable (ChartData.new config chart_type colors)
  | push {s t : ChartData} (value : ℚ) (index : ℕ) :
      Reachable s → ChartData.push s value index = some t → Reachable t
  | setEnabled {s : ChartData} (b : Bool) :
      Reachable s → Reachable (s.setEnabled b)
  | setBatteryState {s : ChartData} (st : BatteryState) :
      Reachable s → Reachable (s.setBatteryState st)

/-- Specification of the `min_by_key` scan step: the result is either the
carried best index, whose key is then a lower bound for all remaining keys, or
the first position of the remaining list holding a key strictly below the
carried one and minimal (first-strictly-minimal) among the remaining keys. -/
theorem firstMinIdxAux_spec {α : Type} [LinearOrder α] :
    ∀ (rest : List α) (i b : ℕ) (kb : α),
      (firstMinIdxAux i (b, kb) rest = b ∧
        ∀ (m : ℕ) (hm : m < rest.length), kb ≤ rest[m]) ∨
      (∃ (m : ℕ) (hm : m < rest.length),
        firstMinIdxAux i (b, kb) rest = i + m ∧
        rest[m] < kb ∧
        (∀ (n : ℕ) (hn : n < rest.length), rest[m] ≤ rest[n]) ∧
        (∀ (n : ℕ) (hn : n < rest.length), n < m → rest[m] < rest[n]))
  | [], i, b, kb => by
    left
    refine ⟨rfl, ?_⟩
    intro m hm
    exact absurd hm (by simp)
  | k :: rest, i, b, kb => by
    by_cases hk : k < kb
    · have ih := firstMinIdxAux_spec rest (i + 1) i k
      simp only [firstMinIdxAux, if_pos hk]
      rcases ih with ⟨h1, h2⟩ | ⟨m, hm, h1, h2, h3, h4⟩
      · right
        refine ⟨0, by simp, ?_, ?_, ?_, ?_⟩
        · simpa using h1
        · simpa using hk
        · intro n hn
          match n, hn with
          | 0, _ => simp
          | n + 1, hn => simpa using h2 n (by simpa using hn)
        · intro n hn hlt
          exact absurd hlt (Nat.not_lt_zero n)
      · right
        refine ⟨m + 1, by simpa using hm, ?_, ?_, ?_, ?_⟩
        · rw [h1]; omega
        · simpa using lt_trans h2 hk
        · intro n hn
          match n, hn with
          | 0, _ => simpa using le_of_lt h2
          | n + 1, hn => simpa using h3 n (by simpa using hn)
        · intro n hn hlt
          match n, hn with
          | 0, _ => simpa using h2
          | n + 1, hn => simpa using h4 n (by simpa using hn) (by omega)
    · have hk' : kb ≤ k := not_lt.mp hk
      have ih := firstMinIdxAux_spec rest (i + 1) b kb
      simp only [firstMinIdxAux, if_neg hk]
      rcases ih with ⟨h1, h2⟩ | ⟨m, hm, h1, h2, h3, h4⟩
      · left
        refine ⟨h1, ?_⟩
        intro n hn
        match n, hn with
        | 0, _ => simpa using hk'
        | n + 1, hn => simpa using h2 n (by simpa using hn)
      · right
        refine ⟨m + 1, by simpa using hm, ?_, ?_, ?_, ?_⟩
        · rw [h1]; omega
        · simpa using h2
        · intro n hn
          match n, hn with
          | 0, _ => simpa using le_of_lt (lt_of_lt_of_le h2 hk')
          | n + 1, hn => simpa using h3 n (by simpa using hn)
        · intro n hn hlt
          match n, hn with
          | 0, _ => simpa using lt_of_lt_of_le h2 hk'
          | n + 1, hn => simpa using h4 n (by simpa using hn) (by omega)

/-- Specification of `min_by_key` on a nonempty key list: it returns the first
index attaining the minimum key. -/
theorem firstMinIdx_spec {α : Type} [LinearOrder α] (keys : List α)
    (hne : keys ≠ []) :
    ∃ (r : ℕ) (hr : r < keys.length),
      firstMinIdx keys = some r ∧
      (∀ (n : ℕ) (hn : n < keys.length), keys[r] ≤ keys[n]) ∧
      (∀ (n : ℕ) (hn : n < keys.length), n < r → keys[r] < keys[n]) := by
  match keys, hne with
  | k :: rest, _ =>
    rcases firstMinIdxAux_spec rest 1 0 k with ⟨h1, h2⟩ | ⟨m, hm, h1, h2, h3, h4⟩
    · refine ⟨0, by simp, ?_, ?_, ?_⟩
      · simp [firstMinIdx, h1]
      · intro n hn
        match n, hn with
        | 0, _ => simp
        | n + 1, hn => simpa using h2 n (by simpa using hn)
      · intro n hn hlt
        exact absurd hlt (Nat.not_lt_zero n)
    · refine ⟨m + 1, by simpa using hm, ?_, ?_, ?_⟩
      · simp only [firstMinIdx, h1]
        congr 1
        omega
      · intro n hn
        match n, hn with
        | 0, _ => simpa using le_of_lt h2
        | n + 1, hn => simpa using h3 n (by simpa using hn)
      · intro n hn hlt
        match n, hn with
        | 0, _ => simpa using h2
        | n + 1, hn => simpa using h4 n (by simpa using hn) (by omega)

/-- Specification of the eviction scan of `ChartData::push`: on a nonempty
series array it selects the first series whose front key is minimal. -/
theorem minFrontIdx_spec (sets : List (List (ℚ × ℚ))) (hne : sets ≠ []) :
    ∃ (j : ℕ) (hj : j < sets.length),
      minFrontIdx sets = some j ∧
      (∀ (n : ℕ) (hn : n < sets.length), frontKey sets[j] ≤ frontKey sets[n]) ∧
      (∀ (n : ℕ) (hn : n < sets.length), n < j →
        frontKey sets[j] < frontKey sets[n]) := by
  have hk : sets.map frontKey ≠ [] := by
    simpa using hne
  obtain ⟨r, hr, h1, h2, h3⟩ := firstMinIdx_spec (sets.map frontKey) hk
  rw [List.length_map] at hr
  refine ⟨r, hr, h1, ?_, ?_⟩
  · intro n hn
    have := h2 n (by simpa using hn)
    simpa using this
  · intro n hn hlt
    have := h3 n (by simpa using hn) hlt
    simpa using this

/-- Removing the front element of one series removes exactly that element from
the flattened point collection, up to permutation. -/
theorem flatten_set_cons_perm {α : Type} :
    ∀ (sets : List (List α)) (j : ℕ) (a : α) (rest : List α),
      sets[j]? = some (a :: rest) →
      List.Perm sets.flatten (a :: (sets.set j rest).flatten)
  | [], j, a, rest => by
    intro h
    simp at h
  | s :: tl, 0, a, rest => by
    intro h
    simp only [List.getElem?_cons_zero, Option.some.injEq] at h
    subst h
    simp
  | s :: tl, j + 1, a, rest => by
    intro h
    simp only [List.getElem?_cons_succ] at h
    have ih := flatten_set_cons_perm tl j a rest h
    simp only [List.set_cons_succ, List.flatten_cons]
    exact List.Perm.trans (ih.append_left s) List.perm_middle

/-- Appending a point to one series adds exactly that point to the flattened
point collection, up to permutation. -/
theorem flatten_set_append_perm {α : Type} :
    ∀ (sets : List (List α)) (i : ℕ) (si : List α) (p : α),
      sets[i]? = some si →
      List.Perm (sets.set i (si ++ [p])).flatten (p :: sets.flatten)
  | [], i, si, p => by
    intro h
    simp at h
  | s :: tl, 0, si, p => by
    intro h
    simp only [List.getElem?_cons_zero, Option.some.injEq] at h
    subst h
    simp only [List.set_cons_zero, List.flatten_cons, List.append_assoc,
      List.singleton_append]
    exact List.perm_middle
  | s :: tl, i + 1, si, p => by
    intro h
    simp only [List.getElem?_cons_succ] at h
    have ih := flatten_set_append_perm tl i si p h
    simp only [List.set_cons_succ, List.flatten_cons]
    exact List.Perm.trans (ih.append_left s) List.perm_middle

/-- Aging distributes over flattening. -/
theorem ageStep_flatten (sets : List (List (ℚ × ℚ))) :
    (ageStep sets).flatten = sets.flatten.map agePoint := by
  simp [ageStep, List.map_flatten]

/-- The fold computing the minimum never exceeds its start value. -/
theorem foldl_min_le_start {α : Type} [LinearOrder α] :
    ∀ (l : List α) (a : α), l.foldl min a ≤ a
  | [], a => le_refl a
  | y :: l, a => le_trans (foldl_min_le_start l (min a y)) (min_le_left a y)

/-- The fold computing the minimum is a lower bound of the list. -/
theorem foldl_min_le_mem {α : Type} [LinearOrder α] :
    ∀ (l : List α) (a y : α), y ∈ l → l.foldl min a ≤ y
  | [], _, _, hy => absurd hy (by simp)
  | z :: l, a, y, hy => by
    rcases List.mem_cons.mp hy with rfl | hy
    · exact le_trans (foldl_min_le_start l (min a y)) (min_le_right a y)
    · exact foldl_min_le_mem l (min a z) y hy

/-- The fold computing the minimum returns its start value or a member. -/
theorem foldl_min_mem {α : Type} [LinearOrder α] :
    ∀ (l : List α) (a : α), l.foldl min a = a ∨ l.foldl min a ∈ l
  | [], a => Or.inl rfl
  | y :: l, a => by
    rcases foldl_min_mem l (min a y) with h | h
    · rcases min_choice a y with h' | h'
      · exact Or.inl (by rw [List.foldl_cons, h, h'])
      · exact Or.inr (by rw [List.foldl_cons, h, h']; exact List.mem_cons_self y l)
    · exact Or.inr (List.mem_cons_of_mem y h)

/-- The fold computing the maximum is at least its start value. -/
theorem foldl_max_ge_start {α : Type} [LinearOrder α] :
    ∀ (l : List α) (a : α), a ≤ l.foldl max a
  | [], a => le_refl a
  | y :: l, a => le_trans (le_max_left a y) (foldl_max_ge_start l (max a y))

/-- The fold computing the maximum is an upper bound of the list. -/
theorem foldl_max_ge_mem {α : Type} [LinearOrder α] :
    ∀ (l : List α) (a y : α), y ∈ l → y ≤ l.foldl max a
  | [], _, _, hy => absurd hy (by simp)
  | z :: l, a, y, hy => by
    rcases List.mem_cons.mp hy with rfl | hy
    · exact le_trans (le_max_right a y) (foldl_max_ge_start l (max a y))
    · exact foldl_max_ge_mem l (max a z) y hy

/-- The fold computing the maximum returns its start value or a member. -/
theorem foldl_max_mem {α : Type} [LinearOrder α] :
    ∀ (l : List α) (a : α), l.foldl max a = a ∨ l.foldl max a ∈ l
  | [], a => Or.inl rfl
  | y :: l, a => by
    rcases foldl_max_mem l (max a y) with h | h
    · rcases max_choice a y with h' | h'
      · exact Or.inl (by rw [List.foldl_cons, h, h'])
      · exact Or.inr (by rw [List.foldl_cons, h, h']; exact List.mem_cons_self y l)
    · exact Or.inr (List.mem_cons_of_mem y h)

/-- Specification of `minY`: on success it returns a member that is a lower
bound of the whole list. -/
theorem minY_spec (l : List ℚ) (m : ℚ) (h : minY l = some m) :
    m ∈ l ∧ ∀ y ∈ l, m ≤ y := by
  match l, h with
  | y :: ys, h =>
    simp only [minY, Option.some.injEq] at h
    subst h
    constructor
    · rcases foldl_min_mem ys y with h | h
      · rw [h]; exact List.mem_cons_self y ys
      · exact List.mem_cons_of_mem y h
    · intro z hz
      rcases List.mem_cons.mp hz with rfl | hz
      · exact foldl_min_le_start ys z
      · exact foldl_min_le_mem ys y z hz

/-- Specification of `maxY`: on success it returns a member that is an upper
bound of the whole list. -/
theorem maxY_spec (l : List ℚ) (m : ℚ) (h : maxY l = some m) :
    m ∈ l ∧ ∀ y ∈ l, y ≤ m := by
  match l, h with
  | y :: ys, h =>
    simp only [maxY, Option.some.injEq] at h
    subst h
    constructor
    · rcases foldl_max_mem ys y with h | h
      · rw [h]; exact List.mem_cons_self y ys
      · exact List.mem_cons_of_mem y h
    · intro z hz
      rcases List.mem_cons.mp hz with rfl | hz
      · exact foldl_max_ge_start ys z
      · exact foldl_max_ge_mem ys y z hz

/-- Number of stored points whose `x` coordinate lies strictly below `x`. -/
def rankLT (x : ℚ) (l : List (ℚ × ℚ)) : ℕ :=
  l.countP (fun q => decide (q.1 < x))

/-- Inductive invariant of the series array maintained by `ChartData::push`:
the total point count is bounded by `RESOLUTION`; each series is strictly
increasing in `x` (front = oldest); every `x` is at most the seed value
`RESOLUTION/2`; all stored `x` values are pairwise distinct; and every stored
point lies at least `(RESOLUTION - total + rank + 1)/2`, which in particular
keeps all `x` values strictly positive. -/
structure InvSets (sets : List (List (ℚ × ℚ))) : Prop where
  cap : sumLens sets ≤ RESOLUTION
  sorted : ∀ l ∈ sets, List.Pairwise (fun p q : ℚ × ℚ => p.1 < q.1) l
  ub : ∀ p ∈ sets.flatten, p.1 ≤ (RESOLUTION : ℚ) / 2
  distinct : List.Pairwise (fun p q : ℚ × ℚ => p.1 ≠ q.1) sets.flatten
  lb : ∀ p ∈ sets.flatten,
    ((RESOLUTION : ℚ) - (sumLens sets : ℚ) + (rankLT p.1 sets.flatten : ℚ) + 1) / 2
      ≤ p.1

/-- The summed series lengths equal the flattened length. -/
theorem sumLens_eq_length_flatten (sets : List (List (ℚ × ℚ))) :
    sumLens sets = sets.flatten.length := by
  rw [sumLens, List.length_flatten]

/-- Below capacity, the eviction phase is the identity. -/
theorem evictStep_not_full {sets : List (List (ℚ × ℚ))}
    (h : sumLens sets ≠ RESOLUTION) : evictStep sets = some sets := by
  simp [evictStep, h]

/-- Characterization of a successful eviction at capacity: the front point `m`
of some series `j` is removed; `m` has the globally smallest `x`; every series
before `j` has a strictly larger front key (first-series tie-break); and the
flattened collection loses exactly `m`, up to permutation. -/
theorem evictStep_spec {sets sets₁ : List (List (ℚ × ℚ))}
    (hsorted : ∀ l ∈ sets, List.Pairwise (fun p q : ℚ × ℚ => p.1 < q.1) l)
    (hfull : sumLens sets = RESOLUTION) (h₁ : evictStep sets = some sets₁) :
    ∃ (j : ℕ) (m : ℚ × ℚ) (rest : List (ℚ × ℚ)),
      sets[j]? = some (m :: rest) ∧
      sets₁ = sets.set j rest ∧
      (∀ q ∈ sets.flatten, m.1 ≤ q.1) ∧
      (∀ (j' : ℕ) (l' : List (ℚ × ℚ)), j' < j → sets[j']? = some l' →
        (m.1 : WithTop ℚ) < frontKey l') ∧
      List.Perm sets.flatten (m :: sets₁.flatten) := by
  have hne : sets ≠ [] := by
    rintro rfl
    simp [sumLens, RESOLUTION] at hfull
  obtain ⟨j, hj, hmin, hle, hlt⟩ := minFrontIdx_spec sets hne
  have hflen : sets.flatten.length = RESOLUTION := by
    rw [← sumLens_eq_length_flatten]; exact hfull
  have hflne : sets.flatten ≠ [] := by
    intro h0
    rw [h0] at hflen
    simp [RESOLUTION] at hflen
  obtain ⟨q0, hq0⟩ := List.exists_mem_of_ne_nil _ hflne
  obtain ⟨l0, hl0, hq0l⟩ := List.mem_flatten.mp hq0
  obtain ⟨k, hk, hlk⟩ := List.mem_iff_getElem.mp hl0
  have hjne : sets[j] ≠ [] := by
    intro hempty
    have h1 : frontKey sets[j] = ⊤ := by rw [hempty]; rfl
    have h2 : frontKey sets[k] < ⊤ := by
      cases hsk : sets[k] with
      | nil =>
        rw [hsk] at hlk
        rw [← hlk] at hq0l
        simp at hq0l
      | cons a l => simp [frontKey, WithTop.coe_lt_top]
    have h3 : (⊤ : WithTop ℚ) ≤ frontKey sets[k] := h1 ▸ hle k hk
    exact absurd (lt_of_le_of_lt h3 h2) (lt_irrefl ⊤)
  obtain ⟨m, rest, hmr⟩ := List.exists_cons_of_ne_nil hjne
  have hget : sets[j]? = some (m :: rest) := by
    rw [List.getElem?_eq_getElem hj, hmr]
  have hstep : evictStep sets = some (sets.set j rest) := by
    simp only [evictStep, if_pos hfull, hmin, hget]
  rw [hstep] at h₁
  have hsets₁ : sets₁ = sets.set j rest := (Option.some.inj h₁).symm
  refine ⟨j, m, rest, hget, hsets₁, ?_, ?_, ?_⟩
  · intro q hq
    obtain ⟨l, hl, hql⟩ := List.mem_flatten.mp hq
    obtain ⟨n, hn, hln⟩ := List.mem_iff_getElem.mp hl
    have hlne : l ≠ [] := by
      intro h0
      rw [h0] at hql
      simp at hql
    obtain ⟨q', l'', hq'⟩ := List.exists_cons_of_ne_nil hlne
    have hfl : frontKey l = (q'.1 : WithTop ℚ) := by rw [hq']; rfl
    have hml : (m.1 : WithTop ℚ) ≤ (q'.1 : WithTop ℚ) := by
      have := hle n hn
      rw [hmr] at this
      rw [hln, hfl] at this
      exact this
    have hmq' : m.1 ≤ q'.1 := WithTop.coe_le_coe.mp hml
    rw [hq'] at hql
    rcases List.mem_cons.mp hql with rfl | hmem
    · exact hmq'
    · have hpl := hsorted l hl
      rw [hq'] at hpl
      have := (List.pairwise_cons.mp hpl).1 q hmem
      exact le_of_lt (lt_of_le_of_lt hmq' this)
  · intro j' l' hj'j hget'
    have hj' : j' < sets.length := lt_trans hj'j hj
    have hl' : l' = sets[j'] := by
      rw [List.getElem?_eq_getElem hj'] at hget'
      exact (Option.some.inj hget').symm
    have := hlt j' hj' hj'j
    rw [hmr] at this
    rw [hl']
    exact this
  · rw [hsets₁]
    exact flatten_set_cons_perm sets j m rest hget

/-- Preservation of the invariant by the aging and insertion phases of
`ChartData::push`, given the invariant (with one free slot) after the eviction
phase. -/
theorem invSets_insert (sets₁ : List (List (ℚ × ℚ))) (v : ℚ) (i : ℕ)
    (seti : List (ℚ × ℚ))
    (hseti : (ageStep sets₁)[i]? = some seti)
    (hcap : sumLens sets₁ + 1 ≤ RESOLUTION)
    (hsorted : ∀ l ∈ sets₁, List.Pairwise (fun p q : ℚ × ℚ => p.1 < q.1) l)
    (hub : ∀ p ∈ sets₁.flatten, p.1 ≤ (RESOLUTION : ℚ) / 2)
    (hdistinct : List.Pairwise (fun p q : ℚ × ℚ => p.1 ≠ q.1) sets₁.flatten)
    (hlb : ∀ p ∈ sets₁.flatten,
      ((RESOLUTION : ℚ) - (sumLens sets₁ : ℚ) + (rankLT p.1 sets₁.flatten : ℚ) + 1) / 2
        ≤ p.1) :
    InvSets ((ageStep sets₁).set i (seti ++ [((RESOLUTION : ℚ) / 2, v)])) := by
  set pt : ℚ × ℚ := ((RESOLUTION : ℚ) / 2, v) with hpt
  have hR : (RESOLUTION : ℚ) = 512 := by norm_num [RESOLUTION]
  have hperm : List.Perm ((ageStep sets₁).set i (seti ++ [pt])).flatten
      (pt :: sets₁.flatten.map agePoint) := by
    have h := flatten_set_append_perm (ageStep sets₁) i seti pt hseti
    rwa [ageStep_flatten] at h
  have hi₂ : i < (ageStep sets₁).length := by
    rcases List.getElem?_eq_some.mp hseti with ⟨h, _⟩
    exact h
  have hseti_mem : seti ∈ ageStep sets₁ := by
    rcases List.getElem?_eq_some.mp hseti with ⟨h, he⟩
    exact he ▸ List.getElem_mem h
  have hsorted₂ : ∀ l ∈ ageStep sets₁, List.Pairwise (fun p q : ℚ × ℚ => p.1 < q.1) l := by
    intro l hl
    obtain ⟨l₁, hl₁, hmap⟩ := List.mem_map.mp hl
    rw [← hmap, List.pairwise_map]
    refine (hsorted l₁ hl₁).imp ?_
    intro a b h
    simp only [agePoint]
    linarith
  have hub_aged : ∀ a ∈ sets₁.flatten, (agePoint a).1 < (RESOLUTION : ℚ) / 2 := by
    intro a ha
    have := hub a ha
    simp only [agePoint]
    rw [hR] at this ⊢
    linarith
  refine { cap := ?_, sorted := ?_, ub := ?_, distinct := ?_, lb := ?_ }
  · rw [sumLens_eq_length_flatten, hperm.length_eq]
    simp only [List.length_cons, List.length_map]
    rw [sumLens_eq_length_flatten] at hcap
    exact hcap
  · intro l hl
    rcases List.mem_or_eq_of_mem_set hl with hl₂ | rfl
    · exact hsorted₂ l hl₂
    · rw [List.pairwise_append]
      refine ⟨hsorted₂ seti hseti_mem, by simp, ?_⟩
      intro a ha b hb
      simp only [List.mem_singleton] at hb
      subst hb
      have haf : a ∈ (ageStep sets₁).flatten :=
        List.mem_flatten.mpr ⟨seti, hseti_mem, ha⟩
      rw [ageStep_flatten] at haf
      obtain ⟨a', ha', rfl⟩ := List.mem_map.mp haf
      exact hub_aged a' ha'
  · intro q hq
    rw [hperm.mem_iff] at hq
    rcases List.mem_cons.mp hq with rfl | hq
    · exact le_refl _
    · obtain ⟨q', hq', rfl⟩ := List.mem_map.mp hq
      exact le_of_lt (hub_aged q' hq')
  · refine (hperm.pairwise_iff (fun h => Ne.symm h)).mpr ?_
    rw [List.pairwise_cons]
    constructor
    · intro b hb
      obtain ⟨b', hb', rfl⟩ := List.mem_map.mp hb
      exact ne_of_gt (hub_aged b' hb')
    · rw [List.pairwise_map]
      refine hdistinct.imp ?_
      intro a b h he
      simp only [agePoint] at he
      exact h (by linarith)
  · intro q hq
    have hpt1 : pt.1 = (RESOLUTION : ℚ) / 2 := rfl
    have hage1 : ∀ r : ℚ × ℚ, (agePoint r).1 = r.1 - 1 / 2 := fun r => rfl
    have hlen₃ : (sumLens ((ageStep sets₁).set i (seti ++ [pt])) : ℚ)
        = (sets₁.flatten.length : ℚ) + 1 := by
      rw [sumLens_eq_length_flatten, hperm.length_eq]
      simp only [List.length_cons, List.length_map]
      push_cast
      ring
    have hrank : rankLT q.1 (((ageStep sets₁).set i (seti ++ [pt])).flatten)
        = rankLT q.1 (pt :: sets₁.flatten.map agePoint) :=
      List.Perm.countP_eq _ hperm
    rw [hperm.mem_iff] at hq
    rcases List.mem_cons.mp hq with rfl | hq
    · have hall : ∀ a ∈ sets₁.flatten,
          ((fun r : ℚ × ℚ => decide (r.1 < pt.1)) ∘ agePoint) a = true := by
        intro a ha
        simp only [Function.comp_apply, decide_eq_true_eq, hpt1]
        exact hub_aged a ha
      have hth : ¬ ((fun r : ℚ × ℚ => decide (r.1 < pt.1)) pt = true) := by
        simp
      have h0 : rankLT pt.1 (pt :: sets₁.flatten.map agePoint)
          = sets₁.flatten.length := by
        simp only [rankLT, List.countP_cons, List.countP_map, if_neg hth,
          Nat.add_zero]
        exact List.countP_eq_length.mpr hall
      rw [hrank, h0, hlen₃, hpt1, hR]
      linarith
    · obtain ⟨q', hq', rfl⟩ := List.mem_map.mp hq
      have hth : ¬ ((fun r : ℚ × ℚ => decide (r.1 < (agePoint q').1)) pt = true) := by
        simp only [decide_eq_true_eq, hpt1]
        exact not_lt.mpr (le_of_lt (hub_aged q' hq'))
      have h0 : rankLT (agePoint q').1 (pt :: sets₁.flatten.map agePoint)
          = rankLT q'.1 sets₁.flatten := by
        simp only [rankLT, List.countP_cons, List.countP_map, if_neg hth,
          Nat.add_zero]
        apply List.countP_congr
        intro a _
        simp only [Function.comp_apply, decide_eq_true_eq, hage1,
          sub_lt_sub_iff_right]
      have hlbq := hlb q' hq'
      rw [sumLens_eq_length_flatten] at hlbq
      rw [hrank, h0, hlen₃, hage1, hR]
      rw [hR] at hlbq
      linarith

/-- The invariant is preserved by one full `ChartData::push` pipeline
(eviction, aging, insertion). -/
theorem invSets_push {sets sets₁ sets₃ : List (List (ℚ × ℚ))} {v : ℚ} {i : ℕ}
    (hInv : InvSets sets) (h₁ : evictStep sets = some sets₁)
    (h₃ : insertStep (ageStep sets₁) v i = some sets₃) : InvSets sets₃ := by
  obtain ⟨seti, hseti, hsets₃⟩ :
      ∃ seti, (ageStep sets₁)[i]? = some seti ∧
        sets₃ = (ageStep sets₁).set i (seti ++ [((RESOLUTION : ℚ) / 2, v)]) := by
    cases hg : (ageStep sets₁)[i]? with
    | none =>
      unfold insertStep at h₃
      rw [hg] at h₃
      cases h₃
    | some seti =>
      unfold insertStep at h₃
      rw [hg] at h₃
      exact ⟨seti, rfl, (Option.some.inj h₃).symm⟩
  subst hsets₃
  by_cases hfull : sumLens sets = RESOLUTION
  · obtain ⟨j, m, rest, hget, hsets₁, hmin, _htie, hperm⟩ :=
      evictStep_spec hInv.sorted hfull h₁
    have hdis : List.Pairwise (fun p q : ℚ × ℚ => p.1 ≠ q.1)
        (m :: sets₁.flatten) :=
      (hperm.pairwise_iff (fun h => Ne.symm h)).mp hInv.distinct
    have hdis₁ := (List.pairwise_cons.mp hdis).2
    have hmne := (List.pairwise_cons.mp hdis).1
    have hmlt : ∀ b ∈ sets₁.flatten, m.1 < b.1 := by
      intro b hb
      have hble : m.1 ≤ b.1 :=
        hmin b (hperm.mem_iff.mpr (List.mem_cons_of_mem _ hb))
      exact lt_of_le_of_ne hble (hmne b hb)
    have hlen : sets.flatten.length = sets₁.flatten.length + 1 := by
      rw [hperm.length_eq]
      simp
    have hcap₁ : sumLens sets₁ + 1 ≤ RESOLUTION := by
      rw [sumLens_eq_length_flatten] at hfull ⊢
      omega
    have hsorted₁ : ∀ l ∈ sets₁,
        List.Pairwise (fun p q : ℚ × ℚ => p.1 < q.1) l := by
      intro l hl
      rw [hsets₁] at hl
      rcases List.mem_or_eq_of_mem_set hl with h | rfl
      · exact hInv.sorted l h
      · obtain ⟨hj, hje⟩ := List.getElem?_eq_some.mp hget
        have hmem : (m :: l) ∈ sets := hje ▸ List.getElem_mem hj
        exact (List.pairwise_cons.mp (hInv.sorted _ hmem)).2
    have hub₁ : ∀ p ∈ sets₁.flatten, p.1 ≤ (RESOLUTION : ℚ) / 2 := fun p hp =>
      hInv.ub p (hperm.mem_iff.mpr (List.mem_cons_of_mem _ hp))
    have hlb₁ : ∀ p ∈ sets₁.flatten,
        ((RESOLUTION : ℚ) - (sumLens sets₁ : ℚ)
          + (rankLT p.1 sets₁.flatten : ℚ) + 1) / 2 ≤ p.1 := by
      intro p hp
      have hps : p ∈ sets.flatten :=
        hperm.mem_iff.mpr (List.mem_cons_of_mem _ hp)
      have h := hInv.lb p hps
      have hr : rankLT p.1 sets.flatten = rankLT p.1 sets₁.flatten + 1 := by
        unfold rankLT
        rw [List.Perm.countP_eq _ hperm, List.countP_cons, if_pos]
        simp only [decide_eq_true_eq]
        exact hmlt p hp
      have hsl : (sumLens sets : ℚ) = (sumLens sets₁ : ℚ) + 1 := by
        rw [sumLens_eq_length_flatten, sumLens_eq_length_flatten, hlen]
        push_cast
        ring
      rw [hr, hsl] at h
      push_cast at h ⊢
      linarith
    exact invSets_insert sets₁ v i seti hseti hcap₁ hsorted₁ hub₁ hdis₁ hlb₁
  · have hsets₁ : sets₁ = sets := by
      rw [evictStep_not_full hfull] at h₁
      exact (Option.some.inj h₁).symm
    subst hsets₁
    have hcap₁ : sumLens sets₁ + 1 ≤ RESOLUTION := by
      have := hInv.cap
      omega
    exact invSets_insert sets₁ v i seti hseti hcap₁ hInv.sorted hInv.ub
      hInv.distinct hInv.lb

/-- Decomposition of a successful `ChartData::push`: the eviction phase
succeeded, series `index` existed, the new point was appended to its aged
version, `value_latest` was set, and `value_min`/`value_max` were recomputed by
the full scan (which cannot be empty after the insertion). -/
theorem push_eq_some {s t : ChartData} {v : ℚ} {i : ℕ}
    (h : s.push v i = some t) :
    ∃ sets₁ seti,
      evictStep s.points_sets = some sets₁ ∧
      (ageStep sets₁)[i]? = some seti ∧
      t.points_sets = (ageStep sets₁).set i (seti ++ [((RESOLUTION : ℚ) / 2, v)]) ∧
      t.value_latest = v ∧
      minY (t.points_sets.flatten.map Prod.snd) = some t.value_min ∧
      maxY (t.points_sets.flatten.map Prod.snd) = some t.value_max ∧
      t.enabled = s.enabled := by
  unfold ChartData.push at h
  cases he : evictStep s.points_sets with
  | none =>
    rw [he] at h
    cases h
  | some sets₁ =>
    rw [he] at h
    dsimp only at h
    cases hg : (ageStep sets₁)[i]? with
    | none =>
      unfold insertStep at h
      rw [hg] at h
      cases h
    | some seti =>
      have hins : insertStep (ageStep sets₁) v i
          = some ((ageStep sets₁).set i (seti ++ [((RESOLUTION : ℚ) / 2, v)])) := by
        unfold insertStep
        rw [hg]
      rw [hins] at h
      dsimp only at h
      have hmem : ((RESOLUTION : ℚ) / 2, v)
          ∈ ((ageStep sets₁).set i (seti ++ [((RESOLUTION : ℚ) / 2, v)])).flatten := by
        have hperm := flatten_set_append_perm (ageStep sets₁) i seti
          ((RESOLUTION : ℚ) / 2, v) hg
        exact hperm.mem_iff.mpr (List.mem_cons_self _ _)
      cases hfl : ((ageStep sets₁).set i (seti ++ [((RESOLUTION : ℚ) / 2, v)])).flatten with
      | nil =>
        rw [hfl] at hmem
        simp at hmem
      | cons a l =>
        rw [hfl] at h
        dsimp only [List.map_cons, minY, maxY] at h
        have ht := Option.some.inj h
        subst ht
        refine ⟨sets₁, seti, rfl, hg, rfl, rfl, ?_, ?_, rfl⟩
        · simp [hfl, minY]
        · simp [hfl, maxY]

/-- The flattening of freshly constructed (all-empty) series is empty. -/
theorem flatten_replicate_nil {α : Type} :
    ∀ n : ℕ, (List.replicate n ([] : List α)).flatten = []
  | 0 => rfl
  | n + 1 => by simp [List.replicate_succ, flatten_replicate_nil n]

/-- Every reachable chart state satisfies the buffer invariant. -/
theorem invSets_reachable {s : ChartData} (h : Reachable s) :
    InvSets s.points_sets := by
  induction h with
  | new config chart_type colors =>
    show InvSets (List.replicate colors.length [])
    have hfl := flatten_replicate_nil (α := ℚ × ℚ) colors.length
    refine { cap := ?_, sorted := ?_, ub := ?_, distinct := ?_, lb := ?_ }
    · rw [sumLens_eq_length_flatten, hfl]
      simp [RESOLUTION]
    · intro l hl
      rw [List.eq_of_mem_replicate hl]
      exact List.Pairwise.nil
    · intro p hp
      rw [hfl] at hp
      simp at hp
    · rw [hfl]
      exact List.Pairwise.nil
    · intro p hp
      rw [hfl] at hp
      simp at hp
  | push value index hr hp ih =>
    obtain ⟨sets₁, seti, he, hg, hps, _, _, _, _⟩ := push_eq_some hp
    have h₃ : insertStep (ageStep sets₁) value index
        = some ((ageStep sets₁).set index (seti ++ [((RESOLUTION : ℚ) / 2, value)])) := by
      unfold insertStep
      rw [hg]
    rw [hps]
    exact invSets_push ih he h₃
  | setEnabled b hr ih => exact ih
  | setBatteryState st hr ih => exact ih

/-- Case analysis of a successful eviction phase. -/
theorem evictStep_cases {sets sets₁ : List (List (ℚ × ℚ))}
    (h : evictStep sets = some sets₁) :
    (sumLens sets ≠ RESOLUTION ∧ sets₁ = sets) ∨
    (sumLens sets = RESOLUTION ∧
      ∃ j m rest, minFrontIdx sets = some j ∧ sets[j]? = some (m :: rest) ∧
        sets₁ = sets.set j rest) := by
  unfold evictStep at h
  by_cases hfull : sumLens sets = RESOLUTION
  · rw [if_pos hfull] at h
    right
    refine ⟨hfull, ?_⟩
    cases hm : minFrontIdx sets with
    | none =>
      rw [hm] at h
      cases h
    | some j =>
      rw [hm] at h
      dsimp only at h
      cases hg : sets[j]? with
      | none =>
        rw [hg] at h
        cases h
      | some l =>
        cases l with
        | nil =>
          rw [hg] at h
          cases h
        | cons m rest =>
          rw [hg] at h
          dsimp only at h
          exact ⟨j, m, rest, rfl, hg, (Option.some.inj h).symm⟩
  · rw [if_neg hfull] at h
    exact Or.inl ⟨hfull, (Option.some.inj h).symm⟩

/-- The eviction phase never changes the number of series. -/
theorem evictStep_length {sets sets₁ : List (List (ℚ × ℚ))}
    (h : evictStep sets = some sets₁) : sets₁.length = sets.length := by
  rcases evictStep_cases h with ⟨_, rfl⟩ | ⟨_, j, m, rest, _, _, rfl⟩
  · rfl
  · exact List.length_set sets j rest

/-- Every point surviving the eviction phase was already stored. -/
theorem evictStep_flatten_subset {sets sets₁ : List (List (ℚ × ℚ))}
    (h : evictStep sets = some sets₁) :
    ∀ p ∈ sets₁.flatten, p ∈ sets.flatten := by
  rcases evictStep_cases h with ⟨_, rfl⟩ | ⟨_, j, m, rest, _, hget, rfl⟩
  · exact fun p hp => hp
  · intro p hp
    have hperm := flatten_set_cons_perm sets j m rest hget
    exact hperm.symm.mem_iff.mp (List.mem_cons_of_mem m hp)

/-- The eviction phase of `ChartData::push` always succeeds: below capacity it
is the identity, and at capacity (512 stored points) some series is nonempty,
so `min_by_key` selects a series with a removable front element. -/
theorem evictStep_isSome (sets : List (List (ℚ × ℚ))) :
    ∃ sets₁, evictStep sets = some sets₁ := by
  by_cases hfull : sumLens sets = RESOLUTION
  · have hne : sets ≠ [] := by
      rintro rfl
      simp [sumLens, RESOLUTION] at hfull
    obtain ⟨j, hj, hmin, hle, _⟩ := minFrontIdx_spec sets hne
    have hflen : sets.flatten.length = RESOLUTION := by
      rw [← sumLens_eq_length_flatten]
      exact hfull
    have hflne : sets.flatten ≠ [] := by
      intro h0
      rw [h0] at hflen
      simp [RESOLUTION] at hflen
    obtain ⟨q0, hq0⟩ := List.exists_mem_of_ne_nil _ hflne
    obtain ⟨l0, hl0, hq0l⟩ := List.mem_flatten.mp hq0
    obtain ⟨k, hk, hlk⟩ := List.mem_iff_getElem.mp hl0
    have hjne : sets[j] ≠ [] := by
      intro hempty
      have h1 : frontKey sets[j] = ⊤ := by rw [hempty]; rfl
      have h2 : frontKey sets[k] < ⊤ := by
        cases hsk : sets[k] with
        | nil =>
          rw [hsk] at hlk
          rw [← hlk] at hq0l
          simp at hq0l
        | cons a l => simp [frontKey, WithTop.coe_lt_top]
      have h3 : (⊤ : WithTop ℚ) ≤ frontKey sets[k] := h1 ▸ hle k hk
      exact absurd (lt_of_le_of_lt h3 h2) (lt_irrefl ⊤)
    obtain ⟨m, rest, hmr⟩ := List.exists_cons_of_ne_nil hjne
    have hget : sets[j]? = some (m :: rest) := by
      rw [List.getElem?_eq_getElem hj, hmr]
    exact ⟨sets.set j rest, by simp only [evictStep, if_pos hfull, hmin, hget]⟩
  · exact ⟨sets, evictStep_not_full hfull⟩

/-- Configuration used for the concrete test states. -/
def cfgH : Config := ⟨Units.Human⟩

/-- A freshly constructed single-series voltage chart. -/
def chart0 : ChartData := ChartData.new cfgH ChartType.Voltage [Color.green]

/-- The state of `chart0` after `push(1.0, 0)`. -/
def chart1 : ChartData :=
  { chart0 with points_sets := [[(256, 1)]], value_latest := 1,
                value_min := 1, value_max := 1 }

/-- The state of `chart1` after `push(2.0, 0)`. -/
def chart2 : ChartData :=
  { chart0 with points_sets := [[(511 / 2, 1), (256, 2)]], value_latest := 2,
                value_min := 1, value_max := 2 }

/-- Concrete computation: the first push inserts `(256, 1)`. -/
theorem chart0_push : chart0.push 1 0 = some chart1 := by
  norm_num [chart0, chart1, cfgH, ChartData.push, ChartData.new, evictStep,
    sumLens, RESOLUTION, minFrontIdx, firstMinIdx, firstMinIdxAux, frontKey,
    insertStep, ageStep, agePoint, minY, maxY]

/-- Concrete computation: the second push ages `(256, 1)` to `(255.5, 1)` and
inserts `(256, 2)`. -/
theorem chart1_push : chart1.push 2 0 = some chart2 := by
  norm_num [chart0, chart1, chart2, cfgH, ChartData.push, ChartData.new,
    evictStep, sumLens, RESOLUTION, minFrontIdx, firstMinIdx, firstMinIdxAux,
    frontKey, insertStep, ageStep, agePoint, minY, maxY]

/-- `chart1` is reachable. -/
theorem chart1_reachable : Reachable chart1 :=
  Reachable.push 1 0 (Reachable.new cfgH ChartType.Voltage [Color.green])
    chart0_push

/-- `chart2` is reachable. -/
theorem chart2_reachable : Reachable chart2 :=
  Reachable.push 2 0 chart1_reachable chart1_push

/-- Rounding a rational that is an integer cast is the identity. -/
theorem roundHalfEven_intCast (n : ℤ) : roundHalfEven ((n : ℤ) : ℚ) = n := by
  norm_num [roundHalfEven, Int.floor_intCast]

/-- C1: for every state reachable by a sequence of pushes with valid series
indices (and setter calls) from a newly constructed buffer, the sum of the
point counts across all series never exceeds `total_capacity`
(`RESOLUTION = 512`). -/
theorem c1_capacity_invariant (s : ChartData) (h : Reachable s) :
    sumCounts s ≤ RESOLUTION :=
  (invSets_reachable h).cap

/-- Witness for C1: the capacity bound holds at the concrete reachable
two-push state `chart2`. -/
theorem c1_capacity_invariant_witness :
    Reachable chart2 ∧ sumCounts chart2 ≤ RESOLUTION :=
  ⟨chart2_reachable, c1_capacity_invariant chart2 chart2_reachable⟩

/-- C4: after every successful push, `value_min` and `value_max` are exactly
the minimum and maximum of `y` over all points currently stored in all series,
and when exactly one point is stored both equal that point's `y`. -/
theorem c4_minmax_exact (s t : ChartData) (v : ℚ) (i : ℕ)
    (hp : s.push v i = some t) :
    t.value_min ∈ (stored t).map Prod.snd ∧
    t.value_max ∈ (stored t).map Prod.snd ∧
    (∀ y ∈ (stored t).map Prod.snd, t.value_min ≤ y ∧ y ≤ t.value_max) ∧
    (∀ p : ℚ × ℚ, stored t = [p] → t.value_min = p.2 ∧ t.value_max = p.2) := by
  obtain ⟨sets₁, seti, he, hg, hps, hlat, hmin, hmax, hen⟩ := push_eq_some hp
  have h₁ := minY_spec _ _ hmin
  have h₂ := maxY_spec _ _ hmax
  refine ⟨h₁.1, h₂.1, fun y hy => ⟨h₁.2 y hy, h₂.2 y hy⟩, ?_⟩
  intro p hp1
  constructor
  · have hm := h₁.1
    rw [show t.points_sets.flatten = stored t from rfl, hp1] at hm
    simpa using hm
  · have hm := h₂.1
    rw [show t.points_sets.flatten = stored t from rfl, hp1] at hm
    simpa using hm

/-- Witness for C4: min/max exactness at the concrete push
`chart1.push 2 0 = chart2`. -/
theorem c4_minmax_exact_witness :
    chart1.push 2 0 = some chart2 ∧
    chart2.value_min ∈ (stored chart2).map Prod.snd :=
  ⟨chart1_push, (c4_minmax_exact chart1 chart2 2 0 chart1_push).1⟩

/-- C6: when enabled, `y_bounds` returns `floor(value_min - 1)` clamped to at
least `-1` followed by `ceil(value_max + 1)`, and `y_labels` returns exactly
these two integer values in `[lower, upper]` order. -/
theorem c6_y_bounds_enabled (s : ChartData) (h : s.enabled = true) :
    s.y_bounds = [max ((⌊s.value_min - 1⌋ : ℤ) : ℚ) (-1),
      ((⌈s.value_max + 1⌉ : ℤ) : ℚ)] ∧
    s.y_labels.map (fun z : ℤ => (z : ℚ)) = s.y_bounds := by
  have hl : s.y_lower = max ((⌊s.value_min - 1⌋ : ℤ) : ℚ) (-1) := by
    unfold ChartData.y_lower
    rw [h, if_pos rfl]
    dsimp only
    by_cases hc : ((⌊s.value_min - 1⌋ : ℤ) : ℚ) < 0
    · rw [if_pos hc]
      have hz : ⌊s.value_min - 1⌋ < 0 := by exact_mod_cast hc
      have hz1 : ((⌊s.value_min - 1⌋ : ℤ) : ℚ) ≤ -1 := by
        have : ⌊s.value_min - 1⌋ ≤ -1 := by omega
        exact_mod_cast this
      rw [max_eq_right hz1]
    · rw [if_neg hc]
      rw [max_eq_left (by linarith [not_lt.mp hc])]
  have hu : s.y_upper = ((⌈s.value_max + 1⌉ : ℤ) : ℚ) := by
    simp [ChartData.y_upper, h]
  obtain ⟨n, hn⟩ : ∃ n : ℤ, s.y_lower = (n : ℚ) := by
    rw [hl]
    rcases le_total ((⌊s.value_min - 1⌋ : ℤ) : ℚ) (-1) with hc | hc
    · refine ⟨-1, ?_⟩
      rw [max_eq_right hc]
      norm_num
    · exact ⟨⌊s.value_min - 1⌋, by rw [max_eq_left hc]⟩
  constructor
  · simp only [ChartData.y_bounds, hl, hu]
  · simp only [ChartData.y_labels, ChartData.y_bounds, List.map_cons,
      List.map_nil, hn, hu, roundHalfEven_intCast]

/-- Witness for C6: the bounds formula at the concrete enabled state
`chart2` (`value_min = 1`, `value_max = 2`). -/
theorem c6_y_bounds_enabled_witness :
    chart2.enabled = true ∧
    chart2.y_bounds = [max ((⌊chart2.value_min - 1⌋ : ℤ) : ℚ) (-1),
      ((⌈chart2.value_max + 1⌉ : ℤ) : ℚ)] :=
  ⟨rfl, (c6_y_bounds_enabled chart2 rfl).1⟩

/-- C7: whenever `enabled = false`, `y_bounds` returns `[0, 0]` and `current`
returns the unavailable sentinel string, regardless of previously pushed
data. -/
theorem c7_disabled_sentinel (s : ChartData) (h : s.enabled = false) :
    s.y_bounds = [0, 0] ∧ s.current = "NOT AVAILABLE" := by
  constructor
  · simp [ChartData.y_bounds, ChartData.y_lower, ChartData.y_upper, h]
  · simp [ChartData.current, h]

/-- Witness for C7: disabling a state that holds pushed data degrades the
bounds and the formatted value. -/
theorem c7_disabled_sentinel_witness :
    (chart2.setEnabled false).enabled = false ∧
    (chart2.setEnabled false).y_bounds = [0, 0] :=
  ⟨rfl, (c7_disabled_sentinel (chart2.setEnabled false) rfl).1⟩

/-- C8: the `enabled` setter modifies only the `enabled` flag; every other
field (all point sequences, `value_min`, `value_max`, `value_latest`, colors,
configuration, chart type, battery state) is unchanged. -/
theorem c8_setEnabled_frame (s : ChartData) (b : Bool) :
    (s.setEnabled b).enabled = b ∧
    (s.setEnabled b).points_sets = s.points_sets ∧
    (s.setEnabled b).value_min = s.value_min ∧
    (s.setEnabled b).value_max = s.value_max ∧
    (s.setEnabled b).value_latest = s.value_latest ∧
    (s.setEnabled b).colors = s.colors ∧
    (s.setEnabled b).config = s.config ∧
    (s.setEnabled b).chart_type = s.chart_type ∧
    (s.setEnabled b).battery_state = s.battery_state :=
  ⟨rfl, rfl, rfl, rfl, rfl, rfl, rfl, rfl, rfl⟩

/-- C10: a newly constructed buffer is enabled, holds no points, has
`value_min = 100` and `value_max = 0`, and `y_bounds` returns `[99, 1]`, a
range whose lower bound exceeds its upper bound. -/
theorem c10_new_state_bounds (config : Config) (chart_type : ChartType)
    (colors : List Color) :
    (ChartData.new config chart_type colors).value_min = 100 ∧
    (ChartData.new config chart_type colors).value_max = 0 ∧
    (ChartData.new config chart_type colors).enabled = true ∧
    stored (ChartData.new config chart_type colors) = [] ∧
    (ChartData.new config chart_type colors).y_bounds = [99, 1] ∧
    (1 : ℚ) < 99 := by
  refine ⟨rfl, rfl, rfl, ?_, ?_, by norm_num⟩
  · show (List.replicate colors.length ([] : List (ℚ × ℚ))).flatten = []
    exact flatten_replicate_nil _
  · norm_num [ChartData.y_bounds, ChartData.y_lower, ChartData.y_upper,
      ChartData.new]

/-- C2 counterexample: after `chart1.push 2 0`, the surviving point `(256, 1)`
has aged to `x = 511/2`, not to `256 - 1`: the aging step decrements `x` by
`0.5`, not by one full unit as the claim states. -/
theorem c2_aging_unit_counterexample :
    chart1.push 2 0 = some chart2 ∧
    stored chart1 = [(256, 1)] ∧
    stored chart2 = [(511 / 2, 1), (256, 2)] ∧
    ¬ ((511 / 2 : ℚ) = 256 - 1) := by
  refine ⟨chart1_push, rfl, rfl, by norm_num⟩

/-- C2 (amended): on every push — at capacity or not — after the (possible)
eviction and before inserting the new point, each remaining stored point's `x`
is decremented by exactly `0.5` (not by one): every series of the new state is
the pointwise-aged image of the corresponding post-eviction series, with the
new point appended to series `index`.  Consequently two points of a series
inserted on consecutive pushes sit at `x` values differing by exactly `0.5`
(the earlier one is never the eviction victim, since an eviction at capacity
always finds a strictly older point). -/
theorem c2_aging_half_unit (s t u : ChartData) (v w : ℚ) (i : ℕ)
    (hr : Reachable s) (hp : s.push v i = some t) (hp₂ : t.push w i = some u) :
    (∀ sets₁, evictStep s.points_sets = some sets₁ →
      (∀ j, j ≠ i → t.points_sets[j]?
        = (sets₁[j]?).map (List.map (fun p : ℚ × ℚ => (p.1 - 1 / 2, p.2)))) ∧
      (∃ l, sets₁[i]? = some l ∧
        t.points_sets[i]? = some (l.map (fun p : ℚ × ℚ => (p.1 - 1 / 2, p.2))
          ++ [((RESOLUTION : ℚ) / 2, v)]))) ∧
    (∃ l', u.points_sets[i]? = some (l'
        ++ [((RESOLUTION : ℚ) / 2 - 1 / 2, v), ((RESOLUTION : ℚ) / 2, w)])) := by
  have hInv_s := invSets_reachable hr
  have hInv_t := invSets_reachable (Reachable.push v i hr hp)
  obtain ⟨sets₁, seti, he, hg, hps, _, _, _, _⟩ := push_eq_some hp
  have hil : i < (ageStep sets₁).length := (List.getElem?_eq_some.mp hg).1
  have hmg : Option.map (List.map agePoint) sets₁[i]? = some seti := by
    simp only [ageStep] at hg
    rw [List.getElem?_map] at hg
    exact hg
  obtain ⟨l, hl, hls⟩ := Option.map_eq_some'.mp hmg
  have ht_i : t.points_sets[i]?
      = some (seti ++ [((RESOLUTION : ℚ) / 2, v)]) := by
    rw [hps, List.getElem?_set_self hil]
  have hi_t : i < t.points_sets.length := (List.getElem?_eq_some.mp ht_i).1
  have hperm_t : List.Perm (stored t)
      (((RESOLUTION : ℚ) / 2, v) :: sets₁.flatten.map agePoint) := by
    show List.Perm t.points_sets.flatten _
    rw [hps]
    have h := flatten_set_append_perm (ageStep sets₁) i seti
      ((RESOLUTION : ℚ) / 2, v) hg
    rwa [ageStep_flatten] at h
  constructor
  · intro sets₁x hex
    have hx : sets₁x = sets₁ := by
      rw [he] at hex
      exact (Option.some.inj hex).symm
    subst hx
    constructor
    · intro j hj
      rw [hps, List.getElem?_set_ne (Ne.symm hj)]
      simp only [ageStep]
      rw [List.getElem?_map]
      rfl
    · refine ⟨l, hl, ?_⟩
      rw [ht_i, ← hls]
      rfl
  · obtain ⟨sets₁', seti', he₂, hg₂, hps₂, _, _, _, _⟩ := push_eq_some hp₂
    have hil' : i < (ageStep sets₁').length := (List.getElem?_eq_some.mp hg₂).1
    obtain ⟨lmid, hlmid⟩ :
        ∃ lmid, sets₁'[i]? = some (lmid ++ [((RESOLUTION : ℚ) / 2, v)]) := by
      by_cases hfull : sumLens t.points_sets = RESOLUTION
      · obtain ⟨j₂, m₂, rest₂, hget₂, hsets₂, hmin₂, _, _⟩ :=
          evictStep_spec hInv_t.sorted hfull he₂
        by_cases hji : j₂ = i
        · subst hji
          have hcons : m₂ :: rest₂ = seti ++ [((RESOLUTION : ℚ) / 2, v)] := by
            rw [hget₂] at ht_i
            exact Option.some.inj ht_i
          cases seti with
          | nil =>
            exfalso
            injection hcons with hm _
            have hlenT : t.points_sets.flatten.length = RESOLUTION := by
              rw [← sumLens_eq_length_flatten]
              exact hfull
            have hlen_aged : (sets₁.flatten.map agePoint).length + 1
                = RESOLUTION := by
              have hpl := hperm_t.length_eq
              rw [show (stored t).length = t.points_sets.flatten.length from rfl,
                hlenT] at hpl
              simpa using hpl.symm
            have hne : sets₁.flatten.map agePoint ≠ [] := by
              intro h0
              rw [h0] at hlen_aged
              simp [RESOLUTION] at hlen_aged
            obtain ⟨q, hq⟩ := List.exists_mem_of_ne_nil _ hne
            obtain ⟨q', hq', rfl⟩ := List.mem_map.mp hq
            have hub' : q'.1 ≤ (RESOLUTION : ℚ) / 2 :=
              hInv_s.ub q' (evictStep_flatten_subset he q' hq')
            have hqt : agePoint q' ∈ stored t :=
              hperm_t.mem_iff.mpr (List.mem_cons_of_mem _ hq)
            have h5 : (RESOLUTION : ℚ) / 2 ≤ (agePoint q').1 := by
              rw [hm] at hmin₂
              exact hmin₂ (agePoint q') hqt
            have h6 : (agePoint q').1 = q'.1 - 1 / 2 := rfl
            have hRq : ((RESOLUTION : ℚ)) = 512 := by norm_num [RESOLUTION]
            rw [h6, hRq] at h5
            rw [hRq] at hub'
            linarith
          | cons a ls =>
            injection hcons with _ hrest
            refine ⟨ls, ?_⟩
            rw [hsets₂, List.getElem?_set_self hi_t, hrest]
            rfl
        · refine ⟨seti, ?_⟩
          rw [hsets₂, List.getElem?_set_ne hji]
          exact ht_i
      · have hx : sets₁' = t.points_sets := by
          have h2 := @evictStep_not_full t.points_sets hfull
          rw [he₂] at h2
          exact Option.some.inj h2
        rw [hx]
        exact ⟨seti, ht_i⟩
    have hmg₂ : Option.map (List.map agePoint) sets₁'[i]? = some seti' := by
      simp only [ageStep] at hg₂
      rw [List.getElem?_map] at hg₂
      exact hg₂
    rw [hlmid, Option.map_some'] at hmg₂
    have hseti' : seti'
        = (lmid ++ [((RESOLUTION : ℚ) / 2, v)]).map agePoint :=
      (Option.some.inj hmg₂).symm
    refine ⟨lmid.map agePoint, ?_⟩
    rw [hps₂, List.getElem?_set_self hil', hseti', List.map_append]
    simp [agePoint, List.append_assoc]

/-- Witness for `c2_aging_half_unit` at the concrete pushes
`chart0 → chart1 → chart2`. -/
theorem c2_aging_half_unit_witness :
    Reachable chart0 ∧ chart0.push 1 0 = some chart1 ∧
    chart1.push 2 0 = some chart2 ∧
    (∃ l', chart2.points_sets[0]?
      = some (l' ++ [((RESOLUTION : ℚ) / 2 - 1 / 2, 1), ((RESOLUTION : ℚ) / 2, 2)])) :=
  ⟨Reachable.new cfgH ChartType.Voltage [Color.green], chart0_push, chart1_push,
    (c2_aging_half_unit chart0 chart1 chart2 1 2 0
      (Reachable.new cfgH ChartType.Voltage [Color.green]) chart0_push
      chart1_push).2⟩

/-- C3: a push evicts iff the buffer holds exactly `total_capacity` points at
the start; in that case exactly one point is removed — the front point of some
series with the globally smallest `x`, ties broken in favor of the first
series — and the removal happens before aging and before insertion (the
removed point leaves un-aged, every survivor is aged afterwards). -/
theorem c3_eviction_correct (s t : ChartData) (v : ℚ) (i : ℕ)
    (hr : Reachable s) (hp : s.push v i = some t) :
    (sumCounts s = RESOLUTION →
      ∃ (j : ℕ) (m : ℚ × ℚ) (rest l : List (ℚ × ℚ)),
        s.points_sets[j]? = some (m :: rest) ∧
        (∀ q ∈ stored s, m.1 ≤ q.1) ∧
        (∀ (j' : ℕ) (l' : List (ℚ × ℚ)), j' < j → s.points_sets[j']? = some l' →
          (m.1 : WithTop ℚ) < frontKey l') ∧
        List.Perm (stored s) (m :: l) ∧
        List.Perm (stored t) (((RESOLUTION : ℚ) / 2, v) :: l.map agePoint)) ∧
    (sumCounts s ≠ RESOLUTION →
      List.Perm (stored t) (((RESOLUTION : ℚ) / 2, v) :: (stored s).map agePoint)) := by
  obtain ⟨sets₁, seti, he, hg, hps, _, _, _, _⟩ := push_eq_some hp
  have hperm₃ : List.Perm (stored t)
      (((RESOLUTION : ℚ) / 2, v) :: sets₁.flatten.map agePoint) := by
    show List.Perm t.points_sets.flatten _
    rw [hps]
    have h := flatten_set_append_perm (ageStep sets₁) i seti
      ((RESOLUTION : ℚ) / 2, v) hg
    rwa [ageStep_flatten] at h
  constructor
  · intro hfull
    obtain ⟨j, m, rest, hget, _, hmin, htie, hperm⟩ :=
      evictStep_spec (invSets_reachable hr).sorted hfull he
    exact ⟨j, m, rest, sets₁.flatten, hget, hmin, htie, hperm, hperm₃⟩
  · intro hnf
    have hs₁ : sets₁ = s.points_sets := by
      have h2 := @evictStep_not_full s.points_sets hnf
      rw [he] at h2
      exact Option.some.inj h2
    rw [hs₁] at hperm₃
    exact hperm₃

/-- Witness for `c3_eviction_correct` at the concrete push
`chart1.push 2 0 = chart2` (below capacity, so no eviction). -/
theorem c3_eviction_correct_witness :
    Reachable chart1 ∧ chart1.push 2 0 = some chart2 ∧
    (sumCounts chart1 ≠ RESOLUTION →
      List.Perm (stored chart2)
        (((RESOLUTION : ℚ) / 2, 2) :: (stored chart1).map agePoint)) :=
  ⟨chart1_reachable, chart1_push,
    (c3_eviction_correct chart1 chart2 2 0 chart1_reachable chart1_push).2⟩

/-- C5: in every reachable state all stored `x` coordinates are non-negative,
and after any successful push the newly inserted point (appended at
`x = RESOLUTION/2`) has the strictly largest `x` among all stored points. -/
theorem c5_x_nonneg_newest_max (s : ChartData) (hr : Reachable s) :
    (∀ p ∈ stored s, 0 ≤ p.1) ∧
    (∀ (v : ℚ) (i : ℕ) (t : ChartData), s.push v i = some t →
      ∃ l, t.points_sets[i]? = some (l ++ [((RESOLUTION : ℚ) / 2, v)]) ∧
        (∀ q ∈ l, q.1 < (RESOLUTION : ℚ) / 2) ∧
        (∀ (j : ℕ) (l' : List (ℚ × ℚ)), j ≠ i → t.points_sets[j]? = some l' →
          ∀ q ∈ l', q.1 < (RESOLUTION : ℚ) / 2) ∧
        (∀ q ∈ stored t, q.1 ≤ (RESOLUTION : ℚ) / 2)) := by
  have hInv := invSets_reachable hr
  have hRq : ((RESOLUTION : ℚ)) = 512 := by norm_num [RESOLUTION]
  constructor
  · intro p hp
    have hlb := hInv.lb p hp
    have hcap := hInv.cap
    have hrank : (0 : ℚ) ≤ (rankLT p.1 s.points_sets.flatten : ℚ) :=
      Nat.cast_nonneg _
    have hcapQ : ((sumLens s.points_sets : ℚ)) ≤ ((RESOLUTION : ℚ)) := by
      exact_mod_cast hcap
    rw [hRq] at hlb hcapQ
    linarith
  · intro v i t hp
    obtain ⟨sets₁, seti, he, hg, hps, _, _, _, _⟩ := push_eq_some hp
    have hub₁ : ∀ q ∈ sets₁.flatten, q.1 ≤ (RESOLUTION : ℚ) / 2 := fun q hq =>
      hInv.ub q (evictStep_flatten_subset he q hq)
    have haged : ∀ q ∈ (ageStep sets₁).flatten, q.1 < (RESOLUTION : ℚ) / 2 := by
      intro q hq
      rw [ageStep_flatten] at hq
      obtain ⟨q', hq', rfl⟩ := List.mem_map.mp hq
      have h1 := hub₁ q' hq'
      show (agePoint q').1 < _
      rw [show (agePoint q').1 = q'.1 - 1 / 2 from rfl, hRq]
      rw [hRq] at h1
      linarith
    have hil : i < (ageStep sets₁).length := (List.getElem?_eq_some.mp hg).1
    have hseti_mem : seti ∈ ageStep sets₁ := by
      rcases List.getElem?_eq_some.mp hg with ⟨h, he2⟩
      exact he2 ▸ List.getElem_mem h
    have htInv : InvSets t.points_sets :=
      invSets_reachable (Reachable.push v i hr hp)
    refine ⟨seti, ?_, ?_, ?_, htInv.ub⟩
    · rw [hps, List.getElem?_set_self hil]
    · intro q hq
      exact haged q (List.mem_flatten.mpr ⟨seti, hseti_mem, hq⟩)
    · intro j l' hj hl'
      rw [hps, List.getElem?_set_ne (Ne.symm hj)] at hl'
      have hl'mem : l' ∈ ageStep sets₁ := by
        rcases List.getElem?_eq_some.mp hl' with ⟨hjl, hje⟩
        exact hje ▸ List.getElem_mem hjl
      intro q hq
      exact haged q (List.mem_flatten.mpr ⟨l', hl'mem, hq⟩)

/-- Witness for `c5_x_nonneg_newest_max` at the concrete reachable state
`chart1`. -/
theorem c5_x_nonneg_newest_max_witness :
    Reachable chart1 ∧ ∀ p ∈ stored chart1, 0 ≤ p.1 :=
  ⟨chart1_reachable, (c5_x_nonneg_newest_max chart1 chart1_reachable).1⟩

/-- C9: from any reachable state, a push with a valid series index
(`index < N`) completes without failure: the eviction scan always selects a
series with a removable front point, and the final indexing is in bounds. -/
theorem c9_push_total (s : ChartData) (hr : Reachable s) (v : ℚ) (i : ℕ)
    (hi : i < s.points_sets.length) : (s.push v i).isSome = true := by
  obtain ⟨sets₁, he⟩ := evictStep_isSome s.points_sets
  have hlen : sets₁.length = s.points_sets.length := evictStep_length he
  have hil : i < (ageStep sets₁).length := by
    rw [ageStep, List.length_map, hlen]
    exact hi
  have hg : (ageStep sets₁)[i]? = some ((ageStep sets₁)[i]) :=
    List.getElem?_eq_getElem hil
  have hins : insertStep (ageStep sets₁) v i
      = some ((ageStep sets₁).set i
          ((ageStep sets₁)[i] ++ [((RESOLUTION : ℚ) / 2, v)])) := by
    unfold insertStep
    rw [hg]
  unfold ChartData.push
  rw [he]
  dsimp only
  rw [hins]
  dsimp only
  split <;> rfl

/-- Witness for `c9_push_total` at the concrete reachable state `chart2`. -/
theorem c9_push_total_witness :
    Reachable chart2 ∧ 0 < chart2.points_sets.length ∧
    ((chart2.push 3 0).isSome = true) := by
  have hlen : 0 < chart2.points_sets.length := by
    rw [show chart2.points_sets.length = 1 from rfl]
    norm_num
  exact ⟨chart2_reachable, hlen, c9_push_total chart2 chart2_reachable 3 0 hlen⟩

end Battop
